import Mathlib

/-!
Shallow embedding of `src/update_versions.py`.

The program is a one-shot version checker: it fetches release tags for four
packages, filters out pre-release tags, normalizes the remaining tags with a
package-specific pattern, picks the numerically greatest version, compares the
result against a stored JSON mapping, and either reports or writes updates.

Modelling conventions:
 - Python strings are Lean `String`s; character-level work uses `String.data`.
 - `str.lower` is modelled by `Char.toLower` on each character (all tags and
   keywords involved are ASCII, where the two agree).
 - The regex `\d+(?:\.\d+)+` is modelled by splitting on the dot character and
   requiring at least two segments, each a nonempty run of decimal digits
   (`Char.isDigit`; Python additionally accepts non-ASCII Unicode digits,
   which none of the claims concern).
 - `json.loads` output is modelled by the inductive type `JVal`; object keys
   are strings, as the Python json module guarantees. Serialisation followed
   by parsing (`json.dumps` then `json.loads`) is the identity on such values,
   so the on-disk file is modelled by the decoded `JVal`.
 - Python dicts are modelled as association lists in insertion order; dict
   assignment is `dictSet` (replace in place if the key exists, else append).
 - Effects of `main` (exit code, stdout, stderr, the at-most-one file write)
   are returned in a `MainResult` record; the remote responses consumed by the
   fetchers are passed in explicitly (`FetchEnv`, or a page-indexed function
   for the pagination loop).
-/

namespace UpdateVersions

/-- JSON values as decoded by `json.loads`. Numbers are modelled as integers;
the program never inspects a numeric value. -/
inductive JVal : Type where
  | jnull : JVal
  | jbool : Bool → JVal
  | jnum : Int → JVal
  | jstr : String → JVal
  | jarr : List JVal → JVal
  | jobj : List (String × JVal) → JVal

/-- The tuple `SKIP_KEYWORDS` from the source. -/
def SKIP_KEYWORDS : List String :=
  ["alpha", "beta", "rc", "test", "pre", "preview", "dev", "snapshot"]

/-- `tag.lower()` at the character-list level. -/
def lowerData (tag : String) : List Char :=
  tag.data.map Char.toLower

/-- Python's substring test `needle in hay` on character lists. -/
def containsSeq (needle : List Char) : List Char → Bool
  | [] => needle.isEmpty
  | c :: rest => needle.isPrefixOf (c :: rest) || containsSeq needle rest

/-- `is_stable_tag`: no skip keyword occurs in the lowercased tag. -/
def is_stable_tag (tag : String) : Bool :=
  !(SKIP_KEYWORDS.any fun keyword => containsSeq keyword.data (lowerData tag))

/-- Split a character list at every dot, keeping empty segments
(the usual split semantics: `splitDots "1..2" = ["1", "", "2"]`). -/
def splitDots : List Char → List (List Char)
  | [] => [[]]
  | c :: rest =>
    if c = '.' then [] :: splitDots rest
    else
      match splitDots rest with
      | seg :: segs => (c :: seg) :: segs
      | [] => [[c]]

/-- A nonempty all-digit segment, the denotation of `\d+`. -/
def digitSeg (seg : List Char) : Bool :=
  !seg.isEmpty && seg.all Char.isDigit

/-- Full match of the regex `\d+(?:\.\d+)+`: at least two dot-separated
segments, each a nonempty digit run. -/
def dottedNumeric (cs : List Char) : Bool :=
  decide (2 ≤ (splitDots cs).length) && (splitDots cs).all digitSeg

/-- `normalize_tor_tag`: require the `tor-` prefix, then a full match of
`tor-\d+(?:\.\d+)+`; return the tag unchanged on success. -/
def normalize_tor_tag (tag : String) : Option String :=
  if ("tor-".data.isPrefixOf tag.data) = false then none
  else if ("tor-".data.isPrefixOf tag.data && dottedNumeric (tag.data.drop 4)) = false then none
  else some tag

/-- `normalize_unbound_tag`: same shape with the `release-` prefix. -/
def normalize_unbound_tag (tag : String) : Option String :=
  if ("release-".data.isPrefixOf tag.data) = false then none
  else if ("release-".data.isPrefixOf tag.data && dottedNumeric (tag.data.drop 8)) = false then none
  else some tag

/-- `normalize_udp2raw_tag`: full match of the bare pattern `\d+(?:\.\d+)+`. -/
def normalize_udp2raw_tag (tag : String) : Option String :=
  if dottedNumeric tag.data = false then none
  else some tag

/-- `normalize_wghttp_tag`: full match of `v\d+(?:\.\d+)+`. -/
def normalize_wghttp_tag (tag : String) : Option String :=
  if ("v".data.isPrefixOf tag.data && dottedNumeric (tag.data.drop 1)) = false then none
  else some tag

/-- Maximal digit runs of a character list, left to right; the accumulator
holds the current run reversed. Models `re.findall(r"\d+", tag)`. -/
def digitRunsAux : List Char → List Char → List (List Char)
  | [], cur => if cur.isEmpty then [] else [cur.reverse]
  | c :: rest, cur =>
    if c.isDigit then digitRunsAux rest (c :: cur)
    else if cur.isEmpty then digitRunsAux rest []
    else cur.reverse :: digitRunsAux rest []

/-- All maximal digit runs in a character list. -/
def digitRuns (cs : List Char) : List (List Char) :=
  digitRunsAux cs []

/-- Decimal value of a digit run (`int(part)`). -/
def digitsToNat (cs : List Char) : Nat :=
  cs.foldl (fun acc c => acc * 10 + (c.toNat - '0'.toNat)) 0

/-- `version_key`: the tuple of integers formed from all digit runs. -/
def version_key (tag : String) : List Nat :=
  (digitRuns tag.data).map digitsToNat

/-- Python tuple comparison `a < b` on integer tuples (strict lexicographic
order, a strict proper-prefix counting as smaller). -/
def keyLt : List Nat → List Nat → Bool
  | _, [] => false
  | [], _ :: _ => true
  | a :: ka, b :: kb =>
    if a < b then true
    else if b < a then false
    else keyLt ka kb

/-- One step of Python's `max` with a key function: replace the current best
only when the new element's key is strictly greater, so ties keep the earlier
element. -/
def chooseLater {α : Type} (key : α → List Nat) (best y : α) : α :=
  if keyLt (key best) (key y) = true then y else best

/-- `max(candidates, key=version_key)`-style maximum, `none` on the empty
list. -/
def maxByKey {α : Type} (key : α → List Nat) : List α → Option α
  | [] => none
  | x :: xs => some (xs.foldl (chooseLater key) x)

/-- The candidate list built by the loop in `pick_latest`: stable tags that
the normalizer accepts, in input order. -/
def stableCandidates (tags : List String) (normalizer : String → Option String) : List String :=
  tags.filterMap fun tag => if is_stable_tag tag then normalizer tag else none

/-- `pick_latest`: maximum of the stable, normalized candidates under
`version_key`, or `None` when no candidate remains. -/
def pick_latest (tags : List String) (normalizer : String → Option String) : Option String :=
  maxByKey version_key (stableCandidates tags normalizer)

/-- The pagination guard: a page's decoded data counts as productive exactly
when it is a nonempty JSON list (`isinstance(data, list) and data`). -/
def pageItems : JVal → Option (List JVal)
  | JVal.jarr (item :: rest) => some (item :: rest)
  | _ => none

/-- The inner collection loop of the fetchers: keep `item["name"]` for the
dict items whose `name` field is a string. -/
def collectTagNames (items : List JVal) : List String :=
  items.filterMap fun item =>
    match item with
    | JVal.jobj fields =>
      match fields.lookup "name" with
      | some (JVal.jstr s) => some s
      | _ => none
    | _ => none

/-- The paginated fetch loop shared by `fetch_tor_tags` and
`fetch_github_tags` (they differ only in the URL they hit). `pages` maps a
page number to that page's decoded response. Returns the accumulated tag
names together with the list of page numbers actually requested. -/
def fetchGo (pages : Nat → JVal) : Nat → Nat → List String × List Nat
  | _, 0 => ([], [])
  | page, r + 1 =>
    match pageItems (pages page) with
    | none => ([], [page])
    | some items =>
      let next := fetchGo pages (page + 1) r
      (collectTagNames items ++ next.1, page :: next.2)

/-- `fetch_github_tags` with the default `max_pages = 6`: the tag names
returned by the loop. -/
def fetch_github_tags (pages : Nat → JVal) : List String :=
  (fetchGo pages 1 6).1

/-- The page numbers the default fetch loop requests. -/
def requestedPages (pages : Nat → JVal) : List Nat :=
  (fetchGo pages 1 6).2

/-- Tag names contributed by `i` consecutive pages starting at page `p`
(a bad page contributes nothing). Used to state what the loop accumulates
before it stops. -/
def pagesTags (pages : Nat → JVal) : Nat → Nat → List String
  | _, 0 => []
  | p, i + 1 =>
    (match pageItems (pages p) with
     | some items => collectTagNames items
     | none => []) ++ pagesTags pages (p + 1) i

/-- `i` consecutive page numbers starting at `p`. -/
def pageRange : Nat → Nat → List Nat
  | _, 0 => []
  | p, i + 1 => p :: pageRange (p + 1) i

/-- Python dict assignment `m[k] = v` on an insertion-ordered association
list: replace the value in place when the key is present, else append. -/
def dictSet (m : List (String × String)) (k v : String) : List (String × String) :=
  if m.any (fun kv => kv.1 == k) then
    m.map fun kv => if kv.1 == k then (kv.1, v) else kv
  else m ++ [(k, v)]

/-- The entry filter of `read_versions`: keep a field exactly when its value
is a string (the key of a decoded JSON object is always a string, so the
`isinstance(key, str)` conjunct always holds in the model). -/
def strEntry (kv : String × JVal) : Option (String × String) :=
  match kv.2 with
  | JVal.jstr s => some (kv.1, s)
  | _ => none

/-- `read_versions` on the decoded file content: reject any non-object
top level, otherwise rebuild the mapping from the string-valued fields. -/
def read_versions (data : JVal) : Except String (List (String × String)) :=
  match data with
  | JVal.jobj fields =>
    Except.ok (fields.foldl (fun result kv =>
      match kv.2 with
      | JVal.jstr s => dictSet result kv.1 s
      | _ => result) [])
  | _ => Except.error "versions.json must contain an object"

/-- `write_versions`, at the level of the decoded file content: the mapping
serialised as a JSON object in insertion order. -/
def write_versions (versions : List (String × String)) : JVal :=
  JVal.jobj (versions.map fun kv => (kv.1, JVal.jstr kv.2))

/-- The remote responses of one run: the tag lists the four fetch calls
produce. -/
structure FetchEnv : Type where
  torTags : List String
  unboundTags : List String
  udp2rawTags : List String
  wghttpTags : List String

/-- `resolve_latest_versions`: pick the latest stable tag per package in the
source order, failing on the first package with no candidate. -/
def resolve_latest_versions (env : FetchEnv) : Except String (List (String × String)) :=
  match pick_latest env.torTags normalize_tor_tag with
  | none => Except.error "Could not determine latest stable tor version"
  | some torLatest =>
    match pick_latest env.unboundTags normalize_unbound_tag with
    | none => Except.error "Could not determine latest stable unbound version"
    | some unboundLatest =>
      match pick_latest env.udp2rawTags normalize_udp2raw_tag with
      | none => Except.error "Could not determine latest stable udp2raw version"
      | some udp2rawLatest =>
        match pick_latest env.wghttpTags normalize_wghttp_tag with
        | none => Except.error "Could not determine latest stable wghttp version"
        | some wghttpLatest =>
          Except.ok [("tor", torLatest), ("unbound", unboundLatest),
                     ("udp2raw", udp2rawLatest), ("wghttp", wghttpLatest)]

/-- `check_updates`: one `(package, current, latest)` triple per tracked
package present on both sides with differing versions, in the fixed order. -/
def check_updates (current latest : List (String × String)) :
    List (String × String × String) :=
  ["tor", "unbound", "udp2raw", "wghttp"].filterMap fun package =>
    match current.lookup package, latest.lookup package with
    | some cur, some lat => if cur ≠ lat then some (package, cur, lat) else none
    | _, _ => none

/-- The observable outcome of one `main` run: exit code, the lines printed to
stdout and stderr, and the mapping written to the store file (`none` when no
write happens). -/
structure MainResult : Type where
  exitCode : Nat
  stdout : List String
  stderr : List String
  written : Option (List (String × String))

/-- The merge step of `main`: `merged = dict(current)` then one dict
assignment per detected update. -/
def mergedVersions (current : List (String × String))
    (updates : List (String × String × String)) : List (String × String) :=
  updates.foldl (fun merged u => dictSet merged u.1 u.2.2) current

/-- `main`, as a function of the check-only flag, the store path, the decoded
store file content, and the fetched tag lists. -/
def mainRun (checkOnly : Bool) (filePath : String) (fileData : JVal)
    (env : FetchEnv) : MainResult :=
  match read_versions fileData with
  | Except.error msg => ⟨2, [], ["Error: " ++ msg], none⟩
  | Except.ok current =>
    match resolve_latest_versions env with
    | Except.error msg => ⟨2, [], ["Error: " ++ msg], none⟩
    | Except.ok latest =>
      let updates := check_updates current latest
      if updates.isEmpty then
        ⟨0, ["versions.json is up to date (stable versions only)."], [], none⟩
      else
        let updateLines := updates.map fun u => "- " ++ u.1 ++ ": " ++ u.2.1 ++ " -> " ++ u.2.2
        if checkOnly then
          ⟨1, "Updates available:" :: updateLines, [], none⟩
        else
          ⟨0, ("Updates available:" :: updateLines) ++ ["Updated " ++ filePath], [],
            some (mergedVersions current updates)⟩

/-- Modelled from the spec (claim C1's wording): the pattern
`<digits>(.<digits>)*` — one or more dot-separated segments, each a nonempty
digit run. -/
def specNumericDottedStar (cs : List Char) : Bool :=
  match splitDots cs with
  | seg :: segs => (seg :: segs).all digitSeg
  | [] => false

/-- Modelled from the spec (claim C1's wording): a tag of the form
`tor-<digits>(.<digits>)*`. -/
def specTorPatternStar (tag : String) : Bool :=
  "tor-".data.isPrefixOf tag.data && specNumericDottedStar (tag.data.drop 4)

/-- The amended pattern `<digits>(.<digits>)+`: at least two dot-separated
segments, each a nonempty digit run, written by structural match rather than
by a length test. -/
def specNumericDottedPlus (cs : List Char) : Bool :=
  match splitDots cs with
  | seg₁ :: seg₂ :: segs => (seg₁ :: seg₂ :: segs).all digitSeg
  | _ => false

/-- The amended tor tag pattern `tor-<digits>(.<digits>)+`. -/
def specTorPatternPlus (tag : String) : Bool :=
  "tor-".data.isPrefixOf tag.data && specNumericDottedPlus (tag.data.drop 4)

/-- A concrete two-page remote: page 1 holds one tag object, page 2 is the
empty list that ends the pagination. -/
def pagesExample : Nat → JVal :=
  fun n => if n = 1 then JVal.jarr [JVal.jobj [("name", JVal.jstr "v1.2.3")]] else JVal.jarr []

/-! ### Helper lemmas -/

theorem containsSeq_of_pre (needle hay : List Char) (h : needle <+: hay) :
    containsSeq needle hay = true := by
  cases hay with
  | nil =>
    obtain ⟨t, ht⟩ := h
    have hn : needle = [] := by
      cases needle with
      | nil => rfl
      | cons c cs => simp at ht
    subst hn
    rfl
  | cons c rest =>
    have hp : needle.isPrefixOf (c :: rest) = true := List.isPrefixOf_iff_prefix.mpr h
    show (needle.isPrefixOf (c :: rest) || containsSeq needle rest) = true
    rw [hp]
    rfl

theorem containsSeq_of_infix (s : List Char) :
    ∀ (needle t hay : List Char), hay = s ++ needle ++ t →
      containsSeq needle hay = true := by
  induction s with
  | nil =>
    intro needle t hay h
    subst h
    exact containsSeq_of_pre needle (needle ++ t) ⟨t, by simp⟩
  | cons a s ih =>
    intro needle t hay h
    subst h
    show containsSeq needle (a :: (s ++ needle ++ t)) = true
    show (needle.isPrefixOf (a :: (s ++ needle ++ t)) || containsSeq needle (s ++ needle ++ t)) = true
    rw [ih needle t _ rfl]
    simp

theorem dottedNumeric_eq_specPlus (cs : List Char) :
    dottedNumeric cs = specNumericDottedPlus cs := by
  unfold dottedNumeric specNumericDottedPlus
  cases h : splitDots cs with
  | nil => simp [h]
  | cons a segs =>
    cases segs with
    | nil => simp [h]
    | cons b rest =>
      have hlen : 2 ≤ (a :: b :: rest).length := by
        simp [List.length_cons]
      simp [h, hlen]

/-! ### Claim theorems -/

/-- C1 counterexample: the tag `tor-7` matches the claimed pattern
`tor-<digits>(.<digits>)*` (zero dot groups), yet `normalize_tor_tag`
rejects it: the code's regex requires at least one dot group. -/
theorem normalize_tor_tag_star_counterexample :
    specTorPatternStar "tor-7" = true ∧ normalize_tor_tag "tor-7" = none := by
  constructor
  · rfl
  · rfl

/-- C1 (amended): `normalize_tor_tag` returns the tag unchanged exactly when
it matches `tor-<digits>(.<digits>)+` (at least one dot group); every other
tag — missing the `tor-` prefix, containing an empty or non-digit segment, or
lacking a dot group — is rejected with `None`. -/
theorem normalize_tor_tag_spec (tag : String) :
    normalize_tor_tag tag =
      if specTorPatternPlus tag = true then some tag else none := by
  unfold normalize_tor_tag specTorPatternPlus
  rw [dottedNumeric_eq_specPlus]
  cases hp : "tor-".data.isPrefixOf tag.data with
  | false => simp [hp]
  | true =>
    cases hd : specNumericDottedPlus (tag.data.drop 4) with
    | false => simp [hp, hd]
    | true => simp [hp, hd]

/-- C2: on the candidates `["tor-1.2.0", "tor-1.10.0", "tor-1.9.5"]` the
selection returns `"tor-1.10.0"`, because tags are compared by the tuple of
integers formed from their digit runs under lexicographic tuple ordering —
plain string comparison would instead rank `"tor-1.9.5"` higher. -/
theorem pick_latest_numeric_order :
    pick_latest ["tor-1.2.0", "tor-1.10.0", "tor-1.9.5"] normalize_tor_tag = some "tor-1.10.0" ∧
    version_key "tor-1.2.0" = [1, 2, 0] ∧
    version_key "tor-1.10.0" = [1, 10, 0] ∧
    version_key "tor-1.9.5" = [1, 9, 5] ∧
    keyLt (version_key "tor-1.9.5") (version_key "tor-1.10.0") = true ∧
    ("tor-1.10.0".data < "tor-1.9.5".data) := by
  refine ⟨rfl, rfl, rfl, rfl, rfl, ?_⟩
  decide

/-- C6: a tag whose lowercased form contains any of the eight skip keywords
is rejected by `is_stable_tag`, whatever letter case the tag itself uses. -/
theorem is_stable_tag_rejects (tag k : String) (hk : k ∈ SKIP_KEYWORDS)
    (h : List.IsInfix k.data (lowerData tag)) : is_stable_tag tag = false := by
  obtain ⟨s, t, hst⟩ := h
  have hc : containsSeq k.data (lowerData tag) = true :=
    containsSeq_of_infix s k.data t _ hst.symm
  have ha : (SKIP_KEYWORDS.any fun keyword => containsSeq keyword.data (lowerData tag)) = true :=
    List.any_eq_true.mpr ⟨k, hk, hc⟩
  simp [is_stable_tag, ha]

/-- C6 witness: the keyword `rc` occurs in the lowercased form of the
mixed-case tag `tor-0.4.8-RC1`, which the filter therefore rejects. -/
theorem is_stable_tag_rejects_witness :
    ("rc" ∈ SKIP_KEYWORDS) ∧ is_stable_tag "tor-0.4.8-RC1" = false :=
  ⟨by decide,
   is_stable_tag_rejects "tor-0.4.8-RC1" "rc" (by decide)
     ⟨"tor-0.4.8-".data, "1".data, by decide⟩⟩

theorem any_key_eq_true (m : List (String × String)) (k : String) :
    (m.any fun kv => kv.1 == k) = true ↔ k ∈ m.map Prod.fst := by
  rw [List.any_eq_true]
  constructor
  · rintro ⟨kv, hm, he⟩
    rw [← beq_iff_eq.mp he]
    exact List.mem_map_of_mem Prod.fst hm
  · intro hm
    obtain ⟨kv, hkv, he⟩ := List.mem_map.mp hm
    exact ⟨kv, hkv, beq_iff_eq.mpr he⟩

theorem dictSet_notMem (m : List (String × String)) (k v : String)
    (h : k ∉ m.map Prod.fst) : dictSet m k v = m ++ [(k, v)] := by
  unfold dictSet
  have ha : (m.any fun kv => kv.1 == k) = false := by
    cases hb : m.any fun kv => kv.1 == k with
    | false => rfl
    | true => exact absurd ((any_key_eq_true m k).mp hb) h
  simp [ha]

theorem read_entries_foldl :
    ∀ (fields : List (String × JVal)) (acc : List (String × String)),
      (∀ kv ∈ fields, kv.1 ∉ acc.map Prod.fst) →
      (fields.map Prod.fst).Nodup →
      (fields.foldl (fun result kv =>
          match kv.2 with
          | JVal.jstr s => dictSet result kv.1 s
          | _ => result) acc) = acc ++ fields.filterMap strEntry := by
  intro fields
  induction fields with
  | nil => intro acc _ _; simp
  | cons kv rest ih =>
    intro acc hdisj hnd
    simp only [List.map_cons, List.nodup_cons] at hnd
    obtain ⟨hk_rest, hnd2⟩ := hnd
    obtain ⟨k, v⟩ := kv
    have hdisj_rest : ∀ kv2 ∈ rest, kv2.1 ∉ acc.map Prod.fst :=
      fun kv2 h2 => hdisj kv2 (List.mem_cons_of_mem _ h2)
    cases v with
    | jstr s =>
      have hknot : k ∉ acc.map Prod.fst := hdisj (k, JVal.jstr s) (List.mem_cons_self _ _)
      show rest.foldl _ (dictSet acc k s) = _
      rw [dictSet_notMem acc k s hknot]
      have hdisj2 : ∀ kv2 ∈ rest, kv2.1 ∉ ((acc ++ [(k, s)]).map Prod.fst) := by
        intro kv2 h2
        simp only [List.map_append, List.mem_append, List.map_cons, List.map_nil,
          List.mem_singleton, not_or]
        refine ⟨hdisj_rest kv2 h2, fun he => hk_rest ?_⟩
        exact List.mem_map.mpr ⟨kv2, h2, he⟩
      rw [ih (acc ++ [(k, s)]) hdisj2 hnd2]
      simp [List.filterMap_cons, strEntry]
    | jnull =>
      show rest.foldl _ acc = _
      rw [ih acc hdisj_rest hnd2]; simp [List.filterMap_cons, strEntry]
    | jbool b =>
      show rest.foldl _ acc = _
      rw [ih acc hdisj_rest hnd2]; simp [List.filterMap_cons, strEntry]
    | jnum n =>
      show rest.foldl _ acc = _
      rw [ih acc hdisj_rest hnd2]; simp [List.filterMap_cons, strEntry]
    | jarr xs =>
      show rest.foldl _ acc = _
      rw [ih acc hdisj_rest hnd2]; simp [List.filterMap_cons, strEntry]
    | jobj xs =>
      show rest.foldl _ acc = _
      rw [ih acc hdisj_rest hnd2]; simp [List.filterMap_cons, strEntry]

/-- C5: `read_versions` fails with the validation error on any non-object top
level; on an object it silently drops every field whose value is not a string
and returns the remaining string-to-string entries without error. -/
theorem read_versions_spec :
    (∀ data : JVal, (∀ fields, data ≠ JVal.jobj fields) →
      read_versions data = Except.error "versions.json must contain an object") ∧
    (∀ fields : List (String × JVal), (fields.map Prod.fst).Nodup →
      read_versions (JVal.jobj fields) = Except.ok (fields.filterMap strEntry)) := by
  constructor
  · intro data h
    cases data with
    | jobj fields => exact absurd rfl (h fields)
    | jnull => rfl
    | jbool b => rfl
    | jnum n => rfl
    | jstr s => rfl
    | jarr xs => rfl
  · intro fields hnd
    have h1 : read_versions (JVal.jobj fields) =
        Except.ok (fields.foldl (fun result kv =>
          match kv.2 with
          | JVal.jstr s => dictSet result kv.1 s
          | _ => result) []) := rfl
    rw [h1, read_entries_foldl fields [] (by simp) hnd]
    simp

/-- C5 witness: a JSON array is rejected with the validation error, and an
object with one string field and one numeric field yields exactly the string
field. -/
theorem read_versions_spec_witness :
    read_versions (JVal.jarr []) = Except.error "versions.json must contain an object" ∧
    read_versions (JVal.jobj [("tor", JVal.jstr "a"), ("n", JVal.jnum 1)]) =
      Except.ok [("tor", "a")] := by
  constructor
  · exact read_versions_spec.1 (JVal.jarr []) (fun fields h => JVal.noConfusion h)
  · exact read_versions_spec.2 [("tor", JVal.jstr "a"), ("n", JVal.jnum 1)] (by decide)

/-- C7: writing any string-to-string mapping with `write_versions` and
reading it back with `read_versions` returns the very same mapping. -/
theorem write_read_roundtrip (versions : List (String × String))
    (h : (versions.map Prod.fst).Nodup) :
    read_versions (write_versions versions) = Except.ok versions := by
  have hkeys : ((versions.map fun kv => (kv.1, JVal.jstr kv.2)).map Prod.fst) =
      versions.map Prod.fst := by
    simp [List.map_map, Function.comp]
  have h1 : read_versions (write_versions versions) =
      Except.ok ((versions.map fun kv => (kv.1, JVal.jstr kv.2)).foldl (fun result kv =>
        match kv.2 with
        | JVal.jstr s => dictSet result kv.1 s
        | _ => result) []) := rfl
  rw [h1, read_entries_foldl _ [] (by simp) (by rw [hkeys]; exact h)]
  have hfm : ∀ (vs : List (String × String)),
      ((vs.map fun kv => (kv.1, JVal.jstr kv.2)).filterMap strEntry) = vs := by
    intro vs
    induction vs with
    | nil => rfl
    | cons kv rest ih => simp [List.filterMap_cons, strEntry, ih]
  rw [hfm]
  simp

/-- C7 witness: the round trip on a concrete two-entry mapping. -/
theorem write_read_roundtrip_witness :
    read_versions (write_versions [("tor", "1.0.0"), ("unbound", "1.19.3")]) =
      Except.ok [("tor", "1.0.0"), ("unbound", "1.19.3")] :=
  write_read_roundtrip [("tor", "1.0.0"), ("unbound", "1.19.3")] (by decide)

theorem resolve_error_of_none (env : FetchEnv)
    (h : pick_latest env.torTags normalize_tor_tag = none ∨
         pick_latest env.unboundTags normalize_unbound_tag = none ∨
         pick_latest env.udp2rawTags normalize_udp2raw_tag = none ∨
         pick_latest env.wghttpTags normalize_wghttp_tag = none) :
    ∃ msg, resolve_latest_versions env = Except.error msg := by
  unfold resolve_latest_versions
  cases h1 : pick_latest env.torTags normalize_tor_tag with
  | none => exact ⟨_, rfl⟩
  | some torLatest =>
    cases h2 : pick_latest env.unboundTags normalize_unbound_tag with
    | none => exact ⟨_, rfl⟩
    | some unboundLatest =>
      cases h3 : pick_latest env.udp2rawTags normalize_udp2raw_tag with
      | none => exact ⟨_, rfl⟩
      | some udp2rawLatest =>
        cases h4 : pick_latest env.wghttpTags normalize_wghttp_tag with
        | none => exact ⟨_, rfl⟩
        | some wghttpLatest =>
          rcases h with h | h | h | h
          · rw [h1] at h; exact absurd h (Option.noConfusion)
          · rw [h2] at h; exact absurd h (Option.noConfusion)
          · rw [h3] at h; exact absurd h (Option.noConfusion)
          · rw [h4] at h; exact absurd h (Option.noConfusion)

/-- C3: when any one of the four packages has no stable candidate
(`pick_latest` returns the none sentinel), the whole run fails fatally: the
exit code is 2, one error line goes to the error stream, and the version
store is not written at all. -/
theorem main_fatal_on_unresolved (checkOnly : Bool) (filePath : String)
    (fileData : JVal) (env : FetchEnv)
    (h : pick_latest env.torTags normalize_tor_tag = none ∨
         pick_latest env.unboundTags normalize_unbound_tag = none ∨
         pick_latest env.udp2rawTags normalize_udp2raw_tag = none ∨
         pick_latest env.wghttpTags normalize_wghttp_tag = none) :
    (mainRun checkOnly filePath fileData env).exitCode = 2 ∧
    (∃ msg, (mainRun checkOnly filePath fileData env).stderr = ["Error: " ++ msg]) ∧
    (mainRun checkOnly filePath fileData env).written = none := by
  obtain ⟨msg, hmsg⟩ := resolve_error_of_none env h
  unfold mainRun
  cases hr : read_versions fileData with
  | error rmsg => exact ⟨rfl, ⟨rmsg, rfl⟩, rfl⟩
  | ok current =>
    rw [hmsg]
    exact ⟨rfl, ⟨msg, rfl⟩, rfl⟩

/-- C3 witness: with an empty tor tag list and an empty stored object, the
run exits 2 and writes nothing. -/
theorem main_fatal_on_unresolved_witness :
    (mainRun false "versions.json" (JVal.jobj []) (FetchEnv.mk [] [] [] [])).exitCode = 2 ∧
    (mainRun false "versions.json" (JVal.jobj []) (FetchEnv.mk [] [] [] [])).written = none := by
  have h := main_fatal_on_unresolved false "versions.json" (JVal.jobj [])
    (FetchEnv.mk [] [] [] []) (Or.inl rfl)
  exact ⟨h.1, h.2.2⟩

/-- C4: in check-only mode, whenever the tracked packages differ between the
stored and the resolved mappings, the run prints the header plus one
"- package: current -> latest" line per differing package, exits with code 1,
and performs no write. -/
theorem main_check_only (filePath : String) (fileData : JVal) (env : FetchEnv)
    (current latest : List (String × String))
    (hread : read_versions fileData = Except.ok current)
    (hres : resolve_latest_versions env = Except.ok latest)
    (hupd : check_updates current latest ≠ []) :
    mainRun true filePath fileData env =
      ⟨1, "Updates available:" ::
            (check_updates current latest).map
              (fun u => "- " ++ u.1 ++ ": " ++ u.2.1 ++ " -> " ++ u.2.2),
        [], none⟩ := by
  unfold mainRun
  rw [hread, hres]
  cases hu : check_updates current latest with
  | nil => exact absurd hu hupd
  | cons u rest => simp [hu]

/-- C4 witness: stored `{"tor": "a"}` against resolved latest versions whose
tor entry is `tor-0.4.8` prints the one update line, exits 1 and leaves the
store unwritten. -/
theorem main_check_only_witness :
    mainRun true "versions.json" (JVal.jobj [("tor", JVal.jstr "a")])
        (FetchEnv.mk ["tor-0.4.8"] ["release-1.19.3"] ["1.2.3"] ["v1.0.1"]) =
      ⟨1, ["Updates available:", "- tor: a -> tor-0.4.8"], [], none⟩ := by
  have h := main_check_only "versions.json" (JVal.jobj [("tor", JVal.jstr "a")])
    (FetchEnv.mk ["tor-0.4.8"] ["release-1.19.3"] ["1.2.3"] ["v1.0.1"])
    [("tor", "a")]
    [("tor", "tor-0.4.8"), ("unbound", "release-1.19.3"),
     ("udp2raw", "1.2.3"), ("wghttp", "v1.0.1")]
    rfl rfl (by decide)
  exact h

theorem lookup_some_mem_fst (m : List (String × String)) (k v : String)
    (h : m.lookup k = some v) : k ∈ m.map Prod.fst := by
  have hs : (m.lookup k).isSome := by rw [h]; rfl
  obtain ⟨p, hp, he⟩ := List.lookup_isSome_iff.mp hs
  exact List.mem_map.mpr ⟨p, hp, (beq_iff_eq.mp he).symm⟩

theorem map_fst_replace (k v : String) (m : List (String × String)) :
    ((m.map fun kv => if kv.1 == k then (kv.1, v) else kv).map Prod.fst) =
      m.map Prod.fst := by
  induction m with
  | nil => rfl
  | cons kv rest ih =>
    simp only [List.map_cons, ih]
    by_cases hkv : kv.1 = k <;> simp [hkv]

theorem dictSet_keys_of_mem (m : List (String × String)) (k v : String)
    (h : k ∈ m.map Prod.fst) : (dictSet m k v).map Prod.fst = m.map Prod.fst := by
  unfold dictSet
  rw [if_pos ((any_key_eq_true m k).mpr h)]
  exact map_fst_replace k v m

theorem lookup_map_replace (k v : String) :
    ∀ m : List (String × String), (m.any fun kv => kv.1 == k) = true →
      ((m.map fun kv => if kv.1 == k then (kv.1, v) else kv).lookup k) = some v := by
  intro m
  induction m with
  | nil => intro h; simp at h
  | cons kv rest ih =>
    obtain ⟨a, b⟩ := kv
    intro h
    simp only [List.map_cons]
    by_cases hkv : a = k
    · subst hkv
      simp
    · have hrest : (rest.any fun kv => kv.1 == k) = true := by
        simp only [List.any_cons] at h
        simpa [hkv] using h
      have hk : (k == a) = false :=
        beq_eq_false_iff_ne.mpr (fun he => hkv he.symm)
      have hred : (if ((a : String) == k) = true then (a, v) else (a, b)) = (a, b) := by
        simp [hkv]
      rw [hred, List.lookup_cons, hk]
      exact ih hrest

theorem lookup_map_replace_ne (k v k2 : String) (hne : k2 ≠ k) :
    ∀ m : List (String × String),
      ((m.map fun kv => if kv.1 == k then (kv.1, v) else kv).lookup k2) = m.lookup k2 := by
  intro m
  induction m with
  | nil => rfl
  | cons kv rest ih =>
    obtain ⟨a, b⟩ := kv
    simp only [List.map_cons]
    by_cases hkv : a = k
    · have hred : (if ((a : String) == k) = true then (a, v) else (a, b)) = (a, v) := by
        simp [hkv]
      have hk2 : (k2 == a) = false :=
        beq_eq_false_iff_ne.mpr (fun he => hne (he.trans hkv))
      rw [hred, List.lookup_cons, hk2, List.lookup_cons, hk2]
      exact ih
    · have hred : (if ((a : String) == k) = true then (a, v) else (a, b)) = (a, b) := by
        simp [hkv]
      rw [hred, List.lookup_cons, List.lookup_cons]
      cases hk2 : k2 == a with
      | true => rfl
      | false => exact ih

theorem any_false_lookup_none (m : List (String × String)) (k : String)
    (ha : (m.any fun kv => kv.1 == k) = false) : m.lookup k = none := by
  rw [List.lookup_eq_none_iff]
  intro p hp
  cases hb : p.1 == k with
  | false =>
    simp only [bne_iff_ne, ne_eq]
    exact fun he => (beq_eq_false_iff_ne.mp hb) he.symm
  | true => exact absurd ((any_key_eq_true m k).mpr
      (List.mem_map.mpr ⟨p, hp, beq_iff_eq.mp hb⟩)) (by rw [ha]; simp)

theorem dictSet_lookup_self (m : List (String × String)) (k v : String) :
    (dictSet m k v).lookup k = some v := by
  unfold dictSet
  cases ha : m.any fun kv => kv.1 == k with
  | true =>
    rw [if_pos rfl]
    exact lookup_map_replace k v m ha
  | false =>
    rw [if_neg (fun hcontra => Bool.noConfusion hcontra)]
    rw [List.lookup_append, any_false_lookup_none m k ha]
    simp

theorem dictSet_lookup_ne (m : List (String × String)) (k v k2 : String)
    (hne : k2 ≠ k) : (dictSet m k v).lookup k2 = m.lookup k2 := by
  unfold dictSet
  cases ha : m.any fun kv => kv.1 == k with
  | true =>
    rw [if_pos rfl]
    exact lookup_map_replace_ne k v k2 hne m
  | false =>
    rw [if_neg (fun hcontra => Bool.noConfusion hcontra)]
    rw [List.lookup_append]
    have h2 : ([(k, v)] : List (String × String)).lookup k2 = none := by
      rw [List.lookup_cons, beq_eq_false_iff_ne.mpr hne]
      rfl
    rw [h2]
    simp

theorem mergedVersions_lookup_other (k : String) :
    ∀ (updates : List (String × String × String)) (current : List (String × String)),
      (∀ u ∈ updates, u.1 ≠ k) →
      (mergedVersions current updates).lookup k = current.lookup k := by
  intro updates
  induction updates with
  | nil => intro current _; rfl
  | cons u rest ih =>
    intro current h
    show (mergedVersions (dictSet current u.1 u.2.2) rest).lookup k = _
    rw [ih _ (fun u2 h2 => h u2 (List.mem_cons_of_mem _ h2))]
    exact dictSet_lookup_ne current u.1 u.2.2 k
      (fun he => h u (List.mem_cons_self _ _) he.symm)

theorem mergedVersions_lookup_updated :
    ∀ (updates : List (String × String × String)) (current : List (String × String)),
      ((updates.map fun u => u.1).Nodup) →
      ∀ u ∈ updates, (mergedVersions current updates).lookup u.1 = some u.2.2 := by
  intro updates
  induction updates with
  | nil => intro current _ u hu; exact absurd hu (List.not_mem_nil u)
  | cons u0 rest ih =>
    intro current hnd u hu
    simp only [List.map_cons, List.nodup_cons] at hnd
    obtain ⟨h0, hndr⟩ := hnd
    rcases List.mem_cons.mp hu with he | hm
    · subst he
      show (mergedVersions (dictSet current u.1 u.2.2) rest).lookup u.1 = some u.2.2
      rw [mergedVersions_lookup_other u.1 rest _
        (fun u2 h2 he => h0 (List.mem_map.mpr ⟨u2, h2, he⟩))]
      exact dictSet_lookup_self current u.1 u.2.2
    · show (mergedVersions (dictSet current u0.1 u0.2.2) rest).lookup u.1 = some u.2.2
      exact ih (dictSet current u0.1 u0.2.2) hndr u hm

theorem mergedVersions_keys :
    ∀ (updates : List (String × String × String)) (current : List (String × String)),
      (∀ u ∈ updates, u.1 ∈ current.map Prod.fst) →
      (mergedVersions current updates).map Prod.fst = current.map Prod.fst := by
  intro updates
  induction updates with
  | nil => intro current _; rfl
  | cons u rest ih =>
    intro current h
    show (mergedVersions (dictSet current u.1 u.2.2) rest).map Prod.fst = _
    have hk : (dictSet current u.1 u.2.2).map Prod.fst = current.map Prod.fst :=
      dictSet_keys_of_mem current u.1 u.2.2 (h u (List.mem_cons_self _ _))
    rw [ih _ (fun u2 h2 => by
      rw [hk]
      exact h u2 (List.mem_cons_of_mem _ h2)), hk]

theorem check_updates_mem (current latest : List (String × String))
    (u : String × String × String) (hu : u ∈ check_updates current latest) :
    current.lookup u.1 = some u.2.1 ∧ latest.lookup u.1 = some u.2.2 := by
  unfold check_updates at hu
  rw [List.mem_filterMap] at hu
  obtain ⟨p, hp, hf⟩ := hu
  cases hc : current.lookup p with
  | none => rw [hc] at hf; simp at hf
  | some cur =>
    cases hl : latest.lookup p with
    | none => rw [hc, hl] at hf; simp at hf
    | some lat =>
      rw [hc, hl] at hf
      simp only [ne_eq, Option.ite_none_right_eq_some, Option.some.injEq] at hf
      obtain ⟨hne, he⟩ := hf
      rw [← he]
      exact ⟨hc, hl⟩

theorem filterMap_key_sublist {β : Type} (f : String → Option β) (key : β → String)
    (hf : ∀ p u, f p = some u → key u = p) :
    ∀ l : List String, List.Sublist ((l.filterMap f).map key) l := by
  intro l
  induction l with
  | nil => simp
  | cons a rest ih =>
    cases hfa : f a with
    | none =>
      rw [List.filterMap_cons, hfa]
      exact ih.cons a
    | some u =>
      rw [List.filterMap_cons, hfa]
      simp only [List.map_cons]
      rw [hf a u hfa]
      exact ih.cons₂ a

theorem check_updates_fst_nodup (current latest : List (String × String)) :
    ((check_updates current latest).map fun u => u.1).Nodup := by
  have hs : List.Sublist ((check_updates current latest).map fun u => u.1)
      ["tor", "unbound", "udp2raw", "wghttp"] := by
    unfold check_updates
    refine filterMap_key_sublist _ _ ?_ _
    intro p u hfu
    cases hc : current.lookup p with
    | none => rw [hc] at hfu; simp at hfu
    | some cur =>
      cases hl : latest.lookup p with
      | none => rw [hc, hl] at hfu; simp at hfu
      | some lat =>
        rw [hc, hl] at hfu
        simp only [ne_eq, Option.ite_none_right_eq_some, Option.some.injEq] at hfu
        rw [← hfu.2]
  exact hs.nodup (by decide)

/-- C10: when `main` persists updates (not check-only), the written mapping
has exactly the keys of the stored mapping; every key without a detected
update — including keys outside the four tracked packages — keeps its stored
value, and exactly the updated packages carry their new latest version. -/
theorem main_write_frame (filePath : String) (fileData : JVal) (env : FetchEnv)
    (current latest w : List (String × String))
    (hread : read_versions fileData = Except.ok current)
    (hres : resolve_latest_versions env = Except.ok latest)
    (hw : (mainRun false filePath fileData env).written = some w) :
    w.map Prod.fst = current.map Prod.fst ∧
    (∀ k : String, (∀ u ∈ check_updates current latest, u.1 ≠ k) →
      w.lookup k = current.lookup k) ∧
    (∀ u ∈ check_updates current latest, w.lookup u.1 = some u.2.2) := by
  have hw2 : w = mergedVersions current (check_updates current latest) := by
    have hrun : (mainRun false filePath fileData env).written =
        (if (check_updates current latest).isEmpty then none
         else some (mergedVersions current (check_updates current latest))) := by
      unfold mainRun
      rw [hread, hres]
      cases hcu : check_updates current latest with
      | nil => simp [hcu]
      | cons u0 rest => simp [hcu]
    rw [hrun] at hw
    cases hcu : check_updates current latest with
    | nil => rw [hcu] at hw; simp at hw
    | cons u0 rest =>
      rw [hcu] at hw
      simp at hw
      exact hw.symm
  subst hw2
  refine ⟨?_, ?_, ?_⟩
  · exact mergedVersions_keys (check_updates current latest) current
      (fun u hu => lookup_some_mem_fst current u.1 u.2.1 (check_updates_mem _ _ u hu).1)
  · intro k hk
    exact mergedVersions_lookup_other k (check_updates current latest) current hk
  · intro u hu
    exact mergedVersions_lookup_updated (check_updates current latest) current
      (check_updates_fst_nodup current latest) u hu

/-- C10 witness: a store holding `tor` and an untracked key `extra`; after the
write, `tor` carries the new version, `extra` keeps its value, and the key set
is unchanged. -/
theorem main_write_frame_witness :
    ([("tor", "tor-0.4.8"), ("extra", "keep")].map Prod.fst =
      [("tor", "a"), ("extra", "keep")].map (Prod.fst (α := String) (β := String))) ∧
    List.lookup "extra" [("tor", "tor-0.4.8"), ("extra", "keep")] =
      List.lookup "extra" [("tor", "a"), ("extra", "keep")] ∧
    List.lookup "tor" [("tor", "tor-0.4.8"), ("extra", "keep")] = some "tor-0.4.8" := by
  have h := main_write_frame "versions.json"
    (JVal.jobj [("tor", JVal.jstr "a"), ("extra", JVal.jstr "keep")])
    (FetchEnv.mk ["tor-0.4.8"] ["release-1.19.3"] ["1.2.3"] ["v1.0.1"])
    [("tor", "a"), ("extra", "keep")]
    [("tor", "tor-0.4.8"), ("unbound", "release-1.19.3"),
     ("udp2raw", "1.2.3"), ("wghttp", "v1.0.1")]
    [("tor", "tor-0.4.8"), ("extra", "keep")]
    rfl rfl rfl
  exact ⟨h.1, h.2.1 "extra" (by decide), h.2.2 ("tor", "a", "tor-0.4.8") (by decide)⟩

theorem fetchGo_length (pages : Nat → JVal) :
    ∀ (r p : Nat), ((fetchGo pages p r).2).length ≤ r := by
  intro r
  induction r with
  | zero => intro p; simp [fetchGo]
  | succ r1 ih =>
    intro p
    cases hp : pageItems (pages p) with
    | none => simp [fetchGo, hp]
    | some items =>
      simp only [fetchGo, hp, List.length_cons]
      have := ih (p + 1)
      omega

theorem fetchGo_early_stop (pages : Nat → JVal) :
    ∀ (i r p : Nat), i < r →
      (∀ j, j < i → pageItems (pages (p + j)) ≠ none) →
      pageItems (pages (p + i)) = none →
      fetchGo pages p r = (pagesTags pages p i, pageRange p (i + 1)) := by
  intro i
  induction i with
  | zero =>
    intro r p hir hgood hbad
    cases r with
    | zero => exact absurd hir (Nat.lt_irrefl 0)
    | succ r1 =>
      rw [Nat.add_zero] at hbad
      simp [fetchGo, hbad, pagesTags, pageRange]
  | succ i ih =>
    intro r p hir hgood hbad
    cases r with
    | zero => exact absurd hir (Nat.not_lt_zero _)
    | succ r1 =>
      have h0 : pageItems (pages p) ≠ none := by
        have h1 := hgood 0 (Nat.succ_pos i)
        rwa [Nat.add_zero] at h1
      cases hp : pageItems (pages p) with
      | none => exact absurd hp h0
      | some items =>
        have hgood2 : ∀ j, j < i → pageItems (pages (p + 1 + j)) ≠ none := by
          intro j hj
          have h1 := hgood (j + 1) (Nat.succ_lt_succ hj)
          have he : p + (j + 1) = p + 1 + j := by omega
          rwa [he] at h1
        have hbad2 : pageItems (pages (p + 1 + i)) = none := by
          have he : p + (i + 1) = p + 1 + i := by omega
          rwa [he] at hbad
        have hrec := ih r1 (p + 1) (Nat.lt_of_succ_lt_succ hir) hgood2 hbad2
        simp [fetchGo, hp, hrec, pagesTags, pageRange]

/-- C8: the fetch loop requests at most 6 pages, and for every response
sequence it stops — without raising an error — at the first page whose data
is not a nonempty list, returning exactly the tag names accumulated from the
earlier pages (the loop is a total function, so exhaustion is
end-of-pagination, never failure). -/
theorem fetch_loop_bounded (pages : Nat → JVal) :
    (requestedPages pages).length ≤ 6 ∧
    (∀ k, 1 ≤ k → k ≤ 6 →
      (∀ j, 1 ≤ j → j < k → pageItems (pages j) ≠ none) →
      pageItems (pages k) = none →
      fetch_github_tags pages = pagesTags pages 1 (k - 1) ∧
      requestedPages pages = pageRange 1 k) := by
  constructor
  · exact fetchGo_length pages 6 1
  · intro k hk1 hk6 hgood hbad
    have hgood2 : ∀ j, j < k - 1 → pageItems (pages (1 + j)) ≠ none := by
      intro j hj
      exact hgood (1 + j) (by omega) (by omega)
    have hbad2 : pageItems (pages (1 + (k - 1))) = none := by
      have he : 1 + (k - 1) = k := by omega
      rw [he]
      exact hbad
    have hrec := fetchGo_early_stop pages (k - 1) 6 1 (by omega) hgood2 hbad2
    have hk : k - 1 + 1 = k := by omega
    rw [hk] at hrec
    constructor
    · show (fetchGo pages 1 6).1 = _
      rw [hrec]
    · show (fetchGo pages 1 6).2 = _
      rw [hrec]

/-- C8 witness: on a remote whose page 1 holds one tag and whose page 2 is
the empty list, the loop returns the one tag and requests exactly pages 1
and 2. -/
theorem fetch_loop_bounded_witness :
    fetch_github_tags pagesExample = ["v1.2.3"] ∧ requestedPages pagesExample = [1, 2] := by
  obtain ⟨h1, h2⟩ := (fetch_loop_bounded pagesExample).2 2 (by omega) (by omega)
    (by
      intro j hj1 hj2
      have hj : j = 1 := by omega
      subst hj
      intro hcontra
      simp [pagesExample, pageItems] at hcontra)
    rfl
  exact ⟨by rw [h1]; rfl, by rw [h2]; rfl⟩

theorem keyLt_nil_right (a : List Nat) : keyLt a [] = false := by
  cases a with
  | nil => rfl
  | cons x xs => rfl

theorem keyLt_trans :
    ∀ (a b c : List Nat), keyLt a b = true → keyLt b c = true → keyLt a c = true := by
  intro a
  induction a with
  | nil =>
    intro b c h1 h2
    cases c with
    | nil => rw [keyLt_nil_right] at h2; exact Bool.noConfusion h2
    | cons hc tc => rfl
  | cons ha ta ih =>
    intro b c h1 h2
    cases b with
    | nil => rw [keyLt_nil_right] at h1; exact Bool.noConfusion h1
    | cons hb tb =>
      cases c with
      | nil => rw [keyLt_nil_right] at h2; exact Bool.noConfusion h2
      | cons hc tc =>
        simp only [keyLt] at h1 h2 ⊢
        by_cases hab : ha < hb
        · by_cases hbc : hb < hc
          · rw [if_pos (by omega)]
          · rw [if_neg hbc] at h2
            by_cases hcb : hc < hb
            · rw [if_pos hcb] at h2; exact Bool.noConfusion h2
            · rw [if_pos (by omega : ha < hc)]
        · rw [if_neg hab] at h1
          by_cases hba : hb < ha
          · rw [if_pos hba] at h1; exact Bool.noConfusion h1
          · rw [if_neg hba] at h1
            by_cases hbc : hb < hc
            · rw [if_pos (by omega : ha < hc)]
            · rw [if_neg hbc] at h2
              by_cases hcb : hc < hb
              · rw [if_pos hcb] at h2; exact Bool.noConfusion h2
              · rw [if_neg hcb] at h2
                rw [if_neg (by omega : ¬ha < hc), if_neg (by omega : ¬hc < ha)]
                exact ih tb tc h1 h2

theorem keyLt_trichotomy :
    ∀ (a b : List Nat), keyLt a b = true ∨ a = b ∨ keyLt b a = true := by
  intro a
  induction a with
  | nil =>
    intro b
    cases b with
    | nil => exact Or.inr (Or.inl rfl)
    | cons hb tb => exact Or.inl rfl
  | cons ha ta ih =>
    intro b
    cases b with
    | nil => exact Or.inr (Or.inr rfl)
    | cons hb tb =>
      by_cases hab : ha < hb
      · exact Or.inl (by simp only [keyLt]; rw [if_pos hab])
      · by_cases hba : hb < ha
        · exact Or.inr (Or.inr (by simp only [keyLt]; rw [if_pos hba]))
        · have he : ha = hb := by omega
          rcases ih tb with h | h | h
          · exact Or.inl (by simp only [keyLt]; rw [if_neg hab, if_neg hba]; exact h)
          · exact Or.inr (Or.inl (by rw [he, h]))
          · exact Or.inr (Or.inr (by
              simp only [keyLt]
              rw [if_neg hba, if_neg hab]
              exact h))

theorem foldl_chooseLater_start {α : Type} (key : α → List Nat) :
    ∀ (xs : List α) (x : α),
      xs.foldl (chooseLater key) x = x ∨
      keyLt (key x) (key (xs.foldl (chooseLater key) x)) = true := by
  intro xs
  induction xs with
  | nil => intro x; exact Or.inl rfl
  | cons y ys ih =>
    intro x
    by_cases hxy : keyLt (key x) (key y) = true
    · have hfold : (y :: ys).foldl (chooseLater key) x = ys.foldl (chooseLater key) y := by
        show ys.foldl (chooseLater key) (chooseLater key x y) = _
        rw [show chooseLater key x y = y from by simp [chooseLater, hxy]]
      rw [hfold]
      rcases ih y with h | h
      · right; rw [h]; exact hxy
      · right; exact keyLt_trans _ _ _ hxy h
    · have hfold : (y :: ys).foldl (chooseLater key) x = ys.foldl (chooseLater key) x := by
        show ys.foldl (chooseLater key) (chooseLater key x y) = _
        rw [show chooseLater key x y = x from by simp [chooseLater, hxy]]
      rw [hfold]
      exact ih x

theorem foldl_chooseLater_spec {α : Type} (key : α → List Nat) :
    ∀ (xs : List α) (x : α), ∃ l₁ l₂,
      x :: xs = l₁ ++ (xs.foldl (chooseLater key) x) :: l₂ ∧
      (∀ y ∈ l₁, keyLt (key y) (key (xs.foldl (chooseLater key) x)) = true) ∧
      (∀ y ∈ l₂, keyLt (key (xs.foldl (chooseLater key) x)) (key y) = false) := by
  intro xs
  induction xs with
  | nil =>
    intro x
    exact ⟨[], [], rfl, by simp, by simp⟩
  | cons y ys ih =>
    intro x
    by_cases hxy : keyLt (key x) (key y) = true
    · have hfold : (y :: ys).foldl (chooseLater key) x = ys.foldl (chooseLater key) y := by
        show ys.foldl (chooseLater key) (chooseLater key x y) = _
        rw [show chooseLater key x y = y from by simp [chooseLater, hxy]]
      rw [hfold]
      obtain ⟨l₁, l₂, heq, hlt, hge⟩ := ih y
      refine ⟨x :: l₁, l₂, ?_, ?_, hge⟩
      · rw [List.cons_append, ← heq]
      · intro z hz
        rcases List.mem_cons.mp hz with hz | hz
        · subst hz
          rcases foldl_chooseLater_start key ys y with h | h
          · rw [h]; exact hxy
          · exact keyLt_trans _ _ _ hxy h
        · exact hlt z hz
    · have hfold : (y :: ys).foldl (chooseLater key) x = ys.foldl (chooseLater key) x := by
        show ys.foldl (chooseLater key) (chooseLater key x y) = _
        rw [show chooseLater key x y = x from by simp [chooseLater, hxy]]
      rw [hfold]
      obtain ⟨l₁, l₂, heq, hlt, hge⟩ := ih x
      have hxyf : keyLt (key x) (key y) = false := by
        revert hxy
        cases keyLt (key x) (key y) <;> simp
      cases l₁ with
      | nil =>
        simp only [List.nil_append] at heq
        injection heq with h1 h2
        refine ⟨[], y :: ys, ?_, by simp, ?_⟩
        · rw [← h1]
          rfl
        · intro z hz
          rcases List.mem_cons.mp hz with hz | hz
          · subst hz
            rw [← h1]
            exact hxyf
          · rw [h2] at hz
            exact hge z hz
      | cons a l₁2 =>
        rw [List.cons_append] at heq
        injection heq with h1 h2
        have hxr : keyLt (key x) (key (ys.foldl (chooseLater key) x)) = true := by
          have h3 := hlt a (List.mem_cons_self _ _)
          rwa [← h1] at h3
        refine ⟨x :: y :: l₁2, l₂, ?_, ?_, hge⟩
        · rw [List.cons_append, List.cons_append, ← h2]
        · intro z hz
          rcases List.mem_cons.mp hz with hz | hz
          · subst hz
            exact hxr
          rcases List.mem_cons.mp hz with hz | hz
          · subst hz
            rcases keyLt_trichotomy (key z) (key x) with h | h | h
            · exact keyLt_trans _ _ _ h hxr
            · rw [h]; exact hxr
            · exact absurd h hxy
          · exact hlt z (List.mem_cons_of_mem a hz)

/-- C9: whenever two or more stable candidates share the same integer tuple
under `version_key`, `pick_latest` still deterministically returns the first
maximal candidate in input-iteration order: every earlier candidate compares
strictly smaller, and no later candidate compares strictly greater. -/
theorem pick_latest_first_max (tags : List String) (normalizer : String → Option String)
    (hdup : ∃ i j : Fin (stableCandidates tags normalizer).length,
      (i : Nat) < (j : Nat) ∧
      version_key ((stableCandidates tags normalizer).get i) =
        version_key ((stableCandidates tags normalizer).get j)) :
    ∃ m l₁ l₂,
      pick_latest tags normalizer = some m ∧
      stableCandidates tags normalizer = l₁ ++ m :: l₂ ∧
      (∀ y ∈ l₁, keyLt (version_key y) (version_key m) = true) ∧
      (∀ y ∈ l₂, keyLt (version_key m) (version_key y) = false) := by
  obtain ⟨i, j, hij, hkey⟩ := hdup
  cases hcs : stableCandidates tags normalizer with
  | nil =>
    rw [hcs] at i
    have hi := i.isLt
    simp at hi
  | cons x xs =>
    have hpick : pick_latest tags normalizer =
        some (xs.foldl (chooseLater version_key) x) := by
      show maxByKey version_key (stableCandidates tags normalizer) = _
      rw [hcs]
      rfl
    obtain ⟨l₁, l₂, heq, hlt, hge⟩ := foldl_chooseLater_spec version_key xs x
    exact ⟨xs.foldl (chooseLater version_key) x, l₁, l₂, hpick, heq, hlt, hge⟩

/-- C9 witness: the two candidates `tor-1.2.0` and `tor-01.2.0` share the
key `(1, 2, 0)`, and the first one in input order is returned. -/
theorem pick_latest_first_max_witness :
    pick_latest ["tor-1.2.0", "tor-01.2.0"] normalize_tor_tag = some "tor-1.2.0" ∧
    version_key "tor-1.2.0" = version_key "tor-01.2.0" := by
  obtain ⟨m, l₁, l₂, hm, hdecomp, hlt, hge⟩ :=
    pick_latest_first_max ["tor-1.2.0", "tor-01.2.0"] normalize_tor_tag
      ⟨⟨0, by decide⟩, ⟨1, by decide⟩, by decide, by decide⟩
  have hcomp : pick_latest ["tor-1.2.0", "tor-01.2.0"] normalize_tor_tag =
      some "tor-1.2.0" := by decide
  exact ⟨hcomp, by decide⟩

end UpdateVersions
